import Mathlib

/-!
# Verification of the Summarizer job queue
  (src/concept-weaver-backend/src/lib/queue.js)

Shallow embedding of the in-memory job queue, the sequential worker loop,
the extraction dispatcher, and the generation/concept-map parsing stage,
together with proofs of the specification claims.

Conventions of the embedding:
* JavaScript strings are modelled by Lean `String`; all inputs of interest
  are ASCII, where JS UTF-16 code-unit semantics and Lean character
  semantics agree.
* Timestamps (`new Date().toISOString()`) are modelled by a logical clock
  (`Nat`) that ticks at every status write.
* External capabilities (file system, pdf-parse, JSZip, mammoth,
  Tesseract, the Cohere client) are modelled as environments supplying
  either a result or a thrown JS error.
-/

namespace Summarizer

/-- The `\x7b` character (left curly brace). -/
def lbrace : Char := Char.ofNat 123

/-- The `\x7d` character (right curly brace). -/
def rbrace : Char := Char.ofNat 125

/-- JS whitespace as used by `String.prototype.trim` and the regexp class
`\s` (the ASCII part, plus NBSP; the exotic Unicode space characters do not
occur in any input considered here). -/
def isJsWs (c : Char) : Bool :=
  c = ' ' || c = '\t' || c = '\n' || c = '\r' ||
  c = Char.ofNat 11 || c = Char.ofNat 12 || c = Char.ofNat 160

/-- Right-trim on character lists: drop trailing JS whitespace. -/
def trimRightList (l : List Char) : List Char :=
  (l.reverse.dropWhile isJsWs).reverse

/-- `String.prototype.trim`: drop leading and trailing JS whitespace. -/
def jsTrim (s : String) : String :=
  ⟨trimRightList (s.data.dropWhile isJsWs)⟩

theorem dropWhile_length_le (p : Char → Bool) (l : List Char) :
    (l.dropWhile p).length ≤ l.length := by
  induction l with
  | nil => simp [List.dropWhile]
  | cons c rest ih =>
    simp only [List.dropWhile, List.length_cons]
    split
    · omega
    · simp

/-- One scan step of `.replace(/<[^>]+>/g, ' ')`: each occurrence of a
`<`, at least one character other than `>`, then `>` is replaced by a
single space, scanning left to right over non-overlapping matches. The
`fuel` argument only bounds recursion (every recursive call consumes at
least one character, so `fuel = length` never runs out). -/
def stripTagsGo : Nat → List Char → List Char
  | _, [] => []
  | 0, l => l
  | fuel + 1, c :: rest =>
    if c = '<' then
      let body := rest.takeWhile (fun d => d ≠ '>')
      match rest.dropWhile (fun d => d ≠ '>') with
      | [] => c :: stripTagsGo fuel rest
      | _ :: after =>
        if body.isEmpty then
          c :: stripTagsGo fuel rest
        else
          ' ' :: stripTagsGo fuel after
    else
      c :: stripTagsGo fuel rest

/-- `.replace(/<[^>]+>/g, ' ')` on a character list. -/
def stripTagsList (l : List Char) : List Char := stripTagsGo l.length l

/-- One scan step of `.replace(/\s+/g, ' ')`: each maximal run of JS
whitespace is replaced by a single space; `fuel` as in `stripTagsGo`. -/
def collapseWsGo : Nat → List Char → List Char
  | _, [] => []
  | 0, l => l
  | fuel + 1, c :: rest =>
    if isJsWs c then
      ' ' :: collapseWsGo fuel (rest.dropWhile isJsWs)
    else
      c :: collapseWsGo fuel rest

/-- `.replace(/\s+/g, ' ')` on a character list. -/
def collapseWsList (l : List Char) : List Char := collapseWsGo l.length l

/-- The slide-XML cleaning pipeline of the PPTX branch:
`slideXml.replace(/<[^>]+>/g, ' ').replace(/\s+/g, ' ').trim()`. -/
def cleanXml (s : String) : String :=
  jsTrim ⟨collapseWsList (stripTagsList s.data)⟩

/-- `pre` is a prefix of `l` (character lists). -/
def listPrefix : List Char → List Char → Bool
  | [], _ => true
  | _ :: _, [] => false
  | a :: as, b :: bs => a = b && listPrefix as bs

/-- `String.prototype.startsWith`. -/
def jsStartsWith (s pre : String) : Bool := listPrefix pre.data s.data

/-- `String.prototype.endsWith`. -/
def jsEndsWith (s suf : String) : Bool := listPrefix suf.data.reverse s.data.reverse

/-- `String.prototype.toLowerCase` (ASCII; all dispatch suffixes are
ASCII, where JS and Lean lowercasing agree). -/
def jsToLower (s : String) : String := ⟨s.data.map Char.toLower⟩

/-- Node's `path.extname`: the substring of the last path segment from its
last `.` (inclusive) to the end; empty when the segment has no `.`, when
its only `.` is the leading character (dotfiles), or for `.` / `..`. -/
def extname (p : String) : String :=
  let base : List Char := (p.data.reverse.takeWhile (fun c => c ≠ '/')).reverse
  if base = ['.'] || base = ['.', '.'] then ""
  else
    let revTail := base.reverse.takeWhile (fun c => c ≠ '.')
    if revTail.length = base.length then ""
    else if revTail.length + 1 = base.length then ""
    else ⟨'.' :: revTail.reverse⟩

/-- The synthetic fallback block produced for unrecognized suffixes
(template literal in the final `else` of the dispatch). -/
def fallbackText (ext : String) : String :=
  "\nThis document is of type \"" ++ ext ++
  "\".\nIt likely contains educational or structured content.\n\n" ++
  "Generate a clear academic-style summary and key concepts based on this context.\n"

/-- Lexicographic comparison of character lists by code point, the order
`Array.prototype.sort`'s default comparator induces on strings (identical
to UTF-16 code-unit order on the Basic Multilingual Plane, where all zip
entry names live). -/
def listCharLe : List Char → List Char → Bool
  | [], _ => true
  | _ :: _, [] => false
  | a :: as, b :: bs =>
    if a.toNat = b.toNat then listCharLe as bs
    else decide (a.toNat < b.toNat)

/-- `a` sorts no later than `b` under the JS default sort. -/
def jsStrLe (a b : String) : Bool := listCharLe a.data b.data

/-- `Object.keys(zip.files).filter(...).sort()`: keep entry names starting
with `ppt/slides/slide` and ending with `.xml`, sorted lexicographically
(JS default sort). -/
def slideNames (names : List String) : List String :=
  List.insertionSort (fun a b : String => jsStrLe a b = true)
    (names.filter (fun n => jsStartsWith n "ppt/slides/slide" && jsEndsWith n ".xml"))

/-- `zip.files[name].async('text')`: fetch an entry's text by name. -/
def entryText (files : List (String × String)) (name : String) : String :=
  (List.lookup name files).getD ""

/-- The `for` loop of the PPTX branch: `i` is the loop index into the
sorted slide list, and only slides with non-empty cleaned text contribute
`Slide <i+1>: <cleaned>\n\n`. -/
def pptxLoop (files : List (String × String)) : List String → Nat → String
  | [], _ => ""
  | name :: rest, i =>
    let cleaned := cleanXml (entryText files name)
    (if cleaned ≠ "" then "Slide " ++ toString (i + 1) ++ ": " ++ cleaned ++ "\n\n" else "")
      ++ pptxLoop files rest (i + 1)

/-- The whole PPTX extraction branch, over the zip's entries given as
(name, text) pairs in insertion order. -/
def pptxText (files : List (String × String)) : String :=
  pptxLoop files (slideNames (files.map Prod.fst)) 0

/-! ## JSON values and `JSON.parse` -/

/-- JSON values as produced by `JSON.parse`. Numbers are kept as their
source literal (none of the verified inputs involve numeric values, so the
binary floating-point conversion is not modelled). -/
inductive JValue where
  | jnull : JValue
  | jbool (b : Bool) : JValue
  | jnum (lit : String) : JValue
  | jstr (s : String) : JValue
  | jarr (elems : List JValue) : JValue
  | jobj (fields : List (String × JValue)) : JValue
deriving Repr

/-- JSON insignificant whitespace (RFC 8259). -/
def isJsonWs (c : Char) : Bool :=
  c = ' ' || c = '\t' || c = '\n' || c = '\r'

def skipJsonWs (l : List Char) : List Char := l.dropWhile isJsonWs

/-- Parse the 4-hex-digit part of a `\u` escape (code points 48–57 are
`0`–`9`, 97–102 are `a`–`f`, 65–70 are `A`–`F`). -/
def hexDigit (c : Char) : Option Nat :=
  let n := c.toNat
  if 48 ≤ n ∧ n ≤ 57 then some (n - 48)
  else if 97 ≤ n ∧ n ≤ 102 then some (n - 87)
  else if 65 ≤ n ∧ n ≤ 70 then some (n - 55)
  else none

/-- Decode a single-character JSON escape (`\"`, `\\`, `\/`, `\b`, `\f`,
`\n`, `\r`, `\t`). -/
def simpleEscape (e : Char) : Option Char :=
  if e = '"' then some '"'
  else if e = '\\' then some '\\'
  else if e = '/' then some '/'
  else if e = 'b' then some (Char.ofNat 8)
  else if e = 'f' then some (Char.ofNat 12)
  else if e = 'n' then some '\n'
  else if e = 'r' then some '\r'
  else if e = 't' then some '\t'
  else none

/-- Parse the body of a JSON string literal (after the opening quote),
returning the decoded string and the remaining input after the closing
quote. Control characters below U+0020 are rejected, as by `JSON.parse`. -/
def parseJsonString : List Char → Option (List Char × List Char)
  | [] => none
  | '"' :: rest => some ([], rest)
  | '\\' :: 'u' :: a :: b :: c3 :: d :: rest3 =>
    match hexDigit a, hexDigit b, hexDigit c3, hexDigit d with
    | some ha, some hb, some hc, some hd =>
      (parseJsonString rest3).map
        (fun p => (Char.ofNat (((ha * 16 + hb) * 16 + hc) * 16 + hd) :: p.1, p.2))
    | _, _, _, _ => none
  | '\\' :: e :: rest2 =>
    if e = 'u' then none
    else
      match simpleEscape e with
      | some ch => (parseJsonString rest2).map (fun p => (ch :: p.1, p.2))
      | none => none
  | c :: rest =>
    if c.toNat < 32 then none
    else (parseJsonString rest).map (fun p => (c :: p.1, p.2))

/-- Parse a JSON number literal (grammar of RFC 8259), returning the
literal's characters and the rest of the input. -/
def parseJsonNumber (l : List Char) : Option (List Char × List Char) :=
  let isDigit : Char → Bool := fun c => 48 ≤ c.toNat && c.toNat ≤ 57
  -- optional minus sign
  let (sign, l1) :=
    match l with
    | '-' :: r => (['-'], r)
    | _ => (([] : List Char), l)
  -- integer part: 0, or nonzero digit followed by digits
  let intPart : Option (List Char × List Char) :=
    match l1 with
    | c :: r =>
      if c = '0' then some ([c], r)
      else if isDigit c then some (c :: r.takeWhile isDigit, r.dropWhile isDigit)
      else none
    | [] => none
  match intPart with
  | none => none
  | some (ip, l2) =>
    -- optional fraction
    let fracPart : Option (List Char × List Char) :=
      match l2 with
      | '.' :: r =>
        match r.takeWhile isDigit with
        | [] => none
        | ds => some ('.' :: ds, r.dropWhile isDigit)
      | _ => some ([], l2)
    match fracPart with
    | none => none
    | some (fp, l3) =>
      -- optional exponent
      let expPart : Option (List Char × List Char) :=
        match l3 with
        | e :: r =>
          if e = 'e' || e = 'E' then
            let (es, r2) :=
              match r with
              | s :: r' => if s = '+' || s = '-' then ([e, s], r') else ([e], r)
              | [] => ([e], r)
            match r2.takeWhile isDigit with
            | [] => none
            | ds => some (es ++ ds, r2.dropWhile isDigit)
          else some ([], l3)
        | [] => some ([], l3)
      match expPart with
      | none => none
      | some (ep, l4) => some (sign ++ ip ++ fp ++ ep, l4)

/-- Check that `pre` is a prefix of `l` and return the remainder. -/
def expectChars : List Char → List Char → Option (List Char)
  | [], l => some l
  | p :: ps, c :: cs => if p = c then expectChars ps cs else none
  | _ :: _, [] => none

mutual

/-- Recursive-descent parser for a JSON value; `fuel` bounds the nesting
and is chosen large enough at the top level that it never runs out on an
input `JSON.parse` would accept. Leading insignificant whitespace is
consumed. -/
def parseJsonValue : Nat → List Char → Option (JValue × List Char)
  | 0, _ => none
  | fuel + 1, l =>
    match skipJsonWs l with
    | [] => none
    | c :: rest =>
      if c = lbrace then
        match skipJsonWs rest with
        | d :: rest2 =>
          if d = rbrace then some (.jobj [], rest2)
          else parseJsonMembers fuel (d :: rest2) >>= fun (fs, rem) =>
            match skipJsonWs rem with
            | e :: rem2 => if e = rbrace then some (.jobj fs, rem2) else none
            | [] => none
        | [] => none
      else if c = '[' then
        match skipJsonWs rest with
        | d :: rest2 =>
          if d = ']' then some (.jarr [], rest2)
          else parseJsonElements fuel (d :: rest2) >>= fun (es, rem) =>
            match skipJsonWs rem with
            | e :: rem2 => if e = ']' then some (.jarr es, rem2) else none
            | [] => none
        | [] => none
      else if c = '"' then
        (parseJsonString rest).map (fun (s, rem) => (.jstr ⟨s⟩, rem))
      else if c = 't' then
        (expectChars ['r', 'u', 'e'] rest).map (fun rem => (.jbool true, rem))
      else if c = 'f' then
        (expectChars ['a', 'l', 's', 'e'] rest).map (fun rem => (.jbool false, rem))
      else if c = 'n' then
        (expectChars ['u', 'l', 'l'] rest).map (fun rem => (.jnull, rem))
      else
        (parseJsonNumber (c :: rest)).map (fun (ds, rem) => (.jnum ⟨ds⟩, rem))

/-- Parse one or more comma-separated array elements. -/
def parseJsonElements : Nat → List Char → Option (List JValue × List Char)
  | 0, _ => none
  | fuel + 1, l =>
    parseJsonValue fuel l >>= fun (v, rem) =>
      match skipJsonWs rem with
      | ',' :: rem2 =>
        parseJsonElements fuel rem2 >>= fun (vs, rem3) => some (v :: vs, rem3)
      | rem2 => some ([v], rem2)

/-- Parse one or more comma-separated object members (`"key": value`). -/
def parseJsonMembers : Nat → List Char → Option (List (String × JValue) × List Char)
  | 0, _ => none
  | fuel + 1, l =>
    match skipJsonWs l with
    | '"' :: rest =>
      parseJsonString rest >>= fun (k, rem) =>
        match skipJsonWs rem with
        | ':' :: rem2 =>
          parseJsonValue fuel rem2 >>= fun (v, rem3) =>
            match skipJsonWs rem3 with
            | ',' :: rem4 =>
              parseJsonMembers fuel rem4 >>= fun (fs, rem5) =>
                some ((⟨k⟩, v) :: fs, rem5)
            | rem4 => some ([(⟨k⟩, v)], rem4)
        | _ => none
    | _ => none

end

/-- `JSON.parse(s)`: parse a single JSON value with insignificant
whitespace allowed around it; anything left over is a syntax error
(modelled as `none`, where `JSON.parse` throws). -/
def jsonParse (s : String) : Option JValue :=
  match parseJsonValue (2 * s.length + 2) s.data with
  | some (v, rem) => if skipJsonWs rem = [] then some v else none
  | none => none

/-! ## Concept-map parsing (the inner try/catch of processJob) -/

/-- `String.prototype.indexOf` for a single character (position of the
first occurrence, `none` where JS returns `-1`). -/
def firstIndexOf : List Char → Char → Option Nat
  | [], _ => none
  | c :: rest, t => if c = t then some 0 else (firstIndexOf rest t).map (· + 1)

/-- `String.prototype.lastIndexOf` for a single character. -/
def lastIndexOf (l : List Char) (t : Char) : Option Nat :=
  match firstIndexOf l.reverse t with
  | some i => some (l.length - 1 - i)
  | none => none

/-- `String.prototype.slice(start, stop)` for in-range non-negative
indices: characters from `start` (inclusive) to `stop` (exclusive), empty
when `start ≥ stop`. -/
def jsSlice (s : String) (start stop : Nat) : String :=
  ⟨(s.data.drop start).take (stop - start)⟩

/-- The concept-map parsing block:
trim the raw response, locate the first `\x7b` and the last `\x7d`
(throwing, hence `none`, if either is absent), slice between them
inclusive and `JSON.parse` the slice; any parse failure also yields
`none` (`conceptMap` stays `null`). -/
def parseConceptMap (respText : String) : Option JValue :=
  let raw := jsTrim respText
  match firstIndexOf raw.data lbrace, lastIndexOf raw.data rbrace with
  | some start, some stop => jsonParse (jsSlice raw start (stop + 1))
  | _, _ => none

/-! ## The processJob pipeline -/

/-- A thrown JS error: its `.message` (`none` models a missing message). -/
structure JsErr where
  message : Option String
deriving Repr, DecidableEq

/-- Job lifecycle states stored in a StatusRecord's `status` field. -/
inductive JStatus where
  | processing : JStatus
  | done : JStatus
  | error : JStatus
deriving Repr, DecidableEq

/-- `result` object attached on success. -/
structure JobResult where
  summary : String
  conceptMap : Option JValue
deriving Repr

/-- The mutable record in `statuses[id]`; absent fields are `none`. -/
structure StatusRecord where
  status : Option JStatus := none
  startedAt : Option Nat := none
  finishedAt : Option Nat := none
  result : Option JobResult := none
  message : Option String := none
deriving Repr

/-- `\x7b ...(statuses[id] || \x7b\x7d), status: 'processing',
startedAt: now \x7d` — the merge written when the worker claims a job. -/
def claimMerge (old : Option StatusRecord) (now : Nat) : StatusRecord :=
  { old.getD {} with status := some .processing, startedAt := some now }

/-- The merge written on success (`status: 'done'`, `finishedAt`,
`result`). -/
def doneMerge (old : Option StatusRecord) (now : Nat) (res : JobResult) : StatusRecord :=
  { old.getD {} with status := some .done, finishedAt := some now, result := some res }

/-- `err.message || 'Processing failed'` (a missing or empty message is
falsy and selects the fallback). -/
def errMessage (m : Option String) : String :=
  match m with
  | some s => if s = "" then "Processing failed" else s
  | none => "Processing failed"

/-- The merge written in the `catch` (`status: 'error'`, `message`). -/
def errMerge (old : Option StatusRecord) (m : Option String) : StatusRecord :=
  { old.getD {} with status := some .error, message := some (errMessage m) }

/-- Results of the external extraction capabilities for one job; each is
either a value or a thrown error (`fs.readFileSync` failures are folded
into the corresponding capability's error). -/
structure ExtractEnv where
  /-- `pdfParse(buffer)` then `data.text` (possibly absent). -/
  pdfRead : Except JsErr (Option String)
  /-- `JSZip.loadAsync(buffer)`: entry names with their `async('text')`
  contents, in insertion order. -/
  zipRead : Except JsErr (List (String × String))
  /-- `mammoth.extractRawText(...)` then `result.value`. -/
  docxRead : Except JsErr (Option String)
  /-- `Tesseract.recognize(fullPath, 'eng')` then `result.data.text`. -/
  ocrRead : Except JsErr (Option String)
deriving Repr

/-- Results of the generation backend for one job. -/
structure GenEnv where
  /-- `initCohere()` — throws when `COHERE_API_KEY` is not set. -/
  cohereInit : Except JsErr Unit
  /-- first `cohere.chat(...)` then `.text` — the summary call. -/
  summaryCall : Except JsErr String
  /-- second `cohere.chat(...)` then `.text` — the graph call. -/
  graphCall : Except JsErr String
deriving Repr

/-- `savedLocation.startsWith('/') ? savedLocation.slice(1) :
savedLocation`, then `path.join(process.cwd(), relativePath)`. The join is
modelled as separator concatenation; dot-segment normalization is elided
(no claim depends on it). -/
def resolveFullPath (cwd savedLocation : String) : String :=
  let relativePath :=
    if jsStartsWith savedLocation "/" then (⟨savedLocation.data.drop 1⟩ : String)
    else savedLocation
  cwd ++ "/" ++ relativePath

/-- The suffix dispatch of processJob over the lowercased full path
(`ext = fullPath.toLowerCase()`), first match wins; any other suffix
takes the synthetic fallback and cannot throw. -/
def extractText (fullPath : String) (env : ExtractEnv) : Except JsErr String :=
  let ext := jsToLower fullPath
  if jsEndsWith ext ".pdf" then env.pdfRead.map (fun t => t.getD "")
  else if jsEndsWith ext ".pptx" then env.zipRead.map pptxText
  else if jsEndsWith ext ".docx" then env.docxRead.map (fun t => t.getD "")
  else if jsEndsWith ext ".png" || jsEndsWith ext ".jpg" || jsEndsWith ext ".jpeg" then
    env.ocrRead.map (fun t => t.getD "")
  else .ok (fallbackText (extname fullPath))

/-- Message of the insufficient-content guard. -/
def insufficientMsg : String :=
  "Not enough readable text found in this file to generate a meaningful summary."

/-- The `try` block of processJob after path resolution: extraction
dispatch, the `!extractedText || extractedText.trim().length < 20` guard,
`initCohere()`, the summary call, the graph call and concept-map parsing.
A thrown error anywhere is the `Except.error` case. -/
def processJobTry (fullPath : String) (xenv : ExtractEnv) (genv : GenEnv) :
    Except JsErr JobResult :=
  match extractText fullPath xenv with
  | .error e => .error e
  | .ok extractedText =>
    if extractedText = "" ∨ (jsTrim extractedText).length < 20 then
      .error ⟨some insufficientMsg⟩
    else
      match genv.cohereInit with
      | .error e => .error e
      | .ok _ =>
        match genv.summaryCall with
        | .error e => .error e
        | .ok summary =>
          match genv.graphCall with
          | .error e => .error e
          | .ok graphResp =>
            .ok { summary := summary, conceptMap := parseConceptMap graphResp }

/-- The terminal status write of processJob: the `try` result merged as
`done`, or the caught error merged as `error`. -/
def processJobRecord (old : Option StatusRecord) (now : Nat) (fullPath : String)
    (xenv : ExtractEnv) (genv : GenEnv) : StatusRecord :=
  match processJobTry fullPath xenv genv with
  | .ok res => doneMerge old now res
  | .error e => errMerge old e.message

/-! ## The queue and worker loop as a state machine -/

/-- A submitted job (`\x7b id, savedLocation \x7d`). -/
structure Job where
  id : String
  savedLocation : String
deriving Repr, DecidableEq

/-- The module-level mutable state of queue.js, plus ghost observers:
`active` is the job whose `processJob` call is in flight, `drainPending`
counts the `setTimeout(processNext, 100)` timers not yet fired, `clock`
is the logical timestamp source, and the two ghost logs record submission
and claim order. -/
structure QState where
  cwd : String
  statuses : List (String × StatusRecord)
  jobs : List Job
  workerRunning : Bool
  active : Option Job
  drainPending : Nat
  clock : Nat
  ghostEnqueued : List String
  ghostClaimed : List String
  ghostFinished : List String
deriving Repr

/-- Read `statuses[id]`. -/
def statusGet (m : List (String × StatusRecord)) (id : String) : Option StatusRecord :=
  List.lookup id m

/-- Write `statuses[id] = r` (replace or insert). -/
def statusSet (m : List (String × StatusRecord)) (id : String) (r : StatusRecord) :
    List (String × StatusRecord) :=
  match m with
  | [] => [(id, r)]
  | (k, v) :: rest => if k = id then (id, r) :: rest else (k, v) :: statusSet rest id r

/-- `processNext()`: no-op when the worker flag is set; otherwise shift
the head job (no-op when empty), set the flag, merge the `processing`
claim into the job's record, and start `processJob` (recorded by
`active`). -/
def processNextFn (s : QState) : QState :=
  if s.workerRunning then s
  else
    match s.jobs with
    | [] => s
    | job :: rest =>
      { s with
        jobs := rest
        workerRunning := true
        statuses := statusSet s.statuses job.id (claimMerge (statusGet s.statuses job.id) s.clock)
        active := some job
        clock := s.clock + 1
        ghostClaimed := s.ghostClaimed ++ [job.id] }

/-- Completion of the in-flight `processJob(job)` call with the external
results `xenv`/`genv`: the terminal status merge, then the `finally`
block (release the flag; if jobs remain, schedule another drain). -/
def finishFn (s : QState) (xenv : ExtractEnv) (genv : GenEnv) : QState :=
  match s.active with
  | none => s
  | some job =>
    let fullPath := resolveFullPath s.cwd job.savedLocation
    let rec1 := processJobRecord (statusGet s.statuses job.id) s.clock fullPath xenv genv
    { s with
      statuses := statusSet s.statuses job.id rec1
      workerRunning := false
      active := none
      drainPending := s.drainPending + (if s.jobs.length > 0 then 1 else 0)
      clock := s.clock + 1
      ghostFinished := s.ghostFinished ++ [job.id] }

/-- Events of the single-threaded interleaving: an `enqueue(job)` call
(push + synchronous `processNext()`), completion of the in-flight
`processJob` with given external results, or a pending drain timer
firing (`setTimeout(processNext, 100)`). -/
inductive Event where
  | enqueue (j : Job) : Event
  | finish (xenv : ExtractEnv) (genv : GenEnv) : Event
  | drainTimer : Event

/-- One step of the event loop. A `finish` with no job in flight and a
`drainTimer` with no pending timer are not enabled (identity). -/
def step (s : QState) : Event → QState
  | .enqueue j =>
    processNextFn { s with jobs := s.jobs ++ [j], ghostEnqueued := s.ghostEnqueued ++ [j.id] }
  | .finish xenv genv => finishFn s xenv genv
  | .drainTimer =>
    if s.drainPending > 0 then processNextFn { s with drainPending := s.drainPending - 1 } else s

/-- The fresh module state. -/
def initState (cwd : String) : QState :=
  { cwd := cwd, statuses := [], jobs := [], workerRunning := false, active := none,
    drainPending := 0, clock := 0, ghostEnqueued := [], ghostClaimed := [],
    ghostFinished := [] }

/-- Execute a sequence of events from the fresh state. -/
def run (cwd : String) (es : List Event) : QState :=
  es.foldl step (initState cwd)

/-! ## Helper lemmas about trimming and searching -/

theorem length_filter_le_dropWhile (p : Char → Bool) (l : List Char) :
    (l.filter (fun c => !p c)).length ≤ (l.dropWhile p).length := by
  induction l with
  | nil => simp
  | cons c rest ih =>
    cases hc : p c with
    | true => simpa [List.filter_cons, List.dropWhile_cons, hc] using ih
    | false =>
      simp only [List.filter_cons, List.dropWhile_cons, hc, Bool.not_false, if_true,
        List.length_cons]
      simp only [show (false = true) = False from by simp, if_false, List.length_cons]
      have := List.length_filter_le (fun c => !p c) rest
      omega

theorem filter_not_dropWhile (p : Char → Bool) (l : List Char) :
    (l.dropWhile p).filter (fun c => !p c) = l.filter (fun c => !p c) := by
  induction l with
  | nil => simp
  | cons c rest ih =>
    cases hc : p c with
    | true => simpa [List.dropWhile_cons, List.filter_cons, hc] using ih
    | false => simp [List.dropWhile_cons, hc]

/-- Trimming only removes whitespace: the trimmed string keeps every
non-whitespace character, so it is at least as long as their count. -/
theorem filter_length_le_jsTrim (s : String) :
    (s.data.filter (fun c => !isJsWs c)).length ≤ (jsTrim s).length := by
  unfold jsTrim trimRightList
  show _ ≤ (((s.data.dropWhile isJsWs).reverse.dropWhile isJsWs).reverse).length
  rw [List.length_reverse]
  calc (s.data.filter (fun c => !isJsWs c)).length
      = ((s.data.dropWhile isJsWs).filter (fun c => !isJsWs c)).length := by
        rw [filter_not_dropWhile]
    _ = ((s.data.dropWhile isJsWs).reverse.filter (fun c => !isJsWs c)).length := by
        rw [List.filter_reverse, List.length_reverse]
    _ ≤ ((s.data.dropWhile isJsWs).reverse.dropWhile isJsWs).length :=
        length_filter_le_dropWhile isJsWs _

/-- Whatever extension string is interpolated, the synthetic fallback
block keeps at least 20 non-whitespace characters after trimming. -/
theorem fallback_trim_length (ext : String) : 20 ≤ (jsTrim (fallbackText ext)).length := by
  refine le_trans ?_ (filter_length_le_jsTrim (fallbackText ext))
  unfold fallbackText
  rw [String.data_append, String.data_append, String.data_append,
    List.filter_append, List.filter_append, List.filter_append,
    List.length_append, List.length_append, List.length_append]
  have h20 : 20 ≤ (("\nThis document is of type \"" : String).data.filter
      (fun c => !isJsWs c)).length := by decide
  omega

theorem jsTrim_empty : jsTrim "" = "" := rfl

/-- The fallback text is non-empty and passes the 20-character guard. -/
theorem fallback_guard_passes (ext : String) :
    ¬(fallbackText ext = "" ∨ (jsTrim (fallbackText ext)).length < 20) := by
  intro h
  have h20 := fallback_trim_length ext
  rcases h with h | h
  · rw [h] at h20
    simp [jsTrim_empty, String.length] at h20
  · omega

/-! ## C4: the insufficient-content guard -/

/-- **C4.** For every job whose extracted text, after trimming, is
shorter than 20 characters (which subsumes an empty or missing
extraction result), `processJobTry` throws the insufficient-content
error, the terminal StatusRecord is `error` with the insufficient-content
message, and the result is independent of the generation environment: no
backend initialization and no generation call is ever consulted. -/
theorem insufficient_content_guard
    (fullPath : String) (xenv : ExtractEnv) (genv genv' : GenEnv)
    (old : Option StatusRecord) (now : Nat) (t : String)
    (hext : extractText fullPath xenv = .ok t)
    (hshort : (jsTrim t).length < 20) :
    processJobTry fullPath xenv genv = .error ⟨some insufficientMsg⟩ ∧
    (processJobRecord old now fullPath xenv genv).status = some JStatus.error ∧
    (processJobRecord old now fullPath xenv genv).message = some insufficientMsg ∧
    processJobTry fullPath xenv genv = processJobTry fullPath xenv genv' := by
  have htry : processJobTry fullPath xenv genv = .error ⟨some insufficientMsg⟩ := by
    unfold processJobTry
    rw [hext]
    simp only [if_pos (Or.inr hshort)]
  have htry' : processJobTry fullPath xenv genv' = .error ⟨some insufficientMsg⟩ := by
    unfold processJobTry
    rw [hext]
    simp only [if_pos (Or.inr hshort)]
  refine ⟨htry, ?_, ?_, htry.trans htry'.symm⟩
  · unfold processJobRecord
    rw [htry]
    rfl
  · unfold processJobRecord
    rw [htry]
    show some (errMessage (some insufficientMsg)) = some insufficientMsg
    unfold errMessage insufficientMsg
    simp

/-- Witness for C4 at a concrete short PDF extraction. -/
theorem insufficient_content_guard_witness :
    extractText "/app/uploads/f.pdf" ⟨.ok (some "short"), .ok [], .ok none, .ok none⟩ =
      .ok "short" ∧
    (jsTrim "short").length < 20 ∧
    processJobTry "/app/uploads/f.pdf" ⟨.ok (some "short"), .ok [], .ok none, .ok none⟩
      ⟨.ok (), .ok "S", .ok "G"⟩ = .error ⟨some insufficientMsg⟩ :=
  ⟨by rfl, by decide,
    (insufficient_content_guard "/app/uploads/f.pdf"
      ⟨.ok (some "short"), .ok [], .ok none, .ok none⟩
      ⟨.ok (), .ok "S", .ok "G"⟩ ⟨.error ⟨none⟩, .error ⟨none⟩, .error ⟨none⟩⟩
      none 0 "short" (by rfl) (by decide)).1⟩

/-! ## C9: unrecognized suffixes degrade gracefully -/

/-- **C9.** For every job whose (lowercased) file path matches none of
the dedicated handler suffixes, extraction never fails: it yields the
synthetic fallback text stating the file's extension, that text trims to
at least 20 characters so the insufficient-content guard passes, and with
a responsive generation backend the job proceeds through generation to a
successful result. -/
theorem unrecognized_suffix_fallback
    (fullPath : String) (xenv : ExtractEnv)
    (h1 : jsEndsWith (jsToLower fullPath) ".pdf" = false)
    (h2 : jsEndsWith (jsToLower fullPath) ".pptx" = false)
    (h3 : jsEndsWith (jsToLower fullPath) ".docx" = false)
    (h4 : jsEndsWith (jsToLower fullPath) ".png" = false)
    (h5 : jsEndsWith (jsToLower fullPath) ".jpg" = false)
    (h6 : jsEndsWith (jsToLower fullPath) ".jpeg" = false) :
    extractText fullPath xenv = .ok (fallbackText (extname fullPath)) ∧
    20 ≤ (jsTrim (fallbackText (extname fullPath))).length ∧
    (∀ summary graphResp : String,
      processJobTry fullPath xenv ⟨.ok (), .ok summary, .ok graphResp⟩ =
        .ok ⟨summary, parseConceptMap graphResp⟩) := by
  have hx : extractText fullPath xenv = .ok (fallbackText (extname fullPath)) := by
    unfold extractText
    simp only [h1, h2, h3, h4, h5, h6]
    rfl
  refine ⟨hx, fallback_trim_length _, fun summary graphResp => ?_⟩
  simp only [processJobTry, hx, if_neg (fallback_guard_passes (extname fullPath))]

/-- Witness for C9 at a concrete `.txt` path. -/
theorem unrecognized_suffix_fallback_witness :
    (jsEndsWith (jsToLower "/app/uploads/notes.txt") ".pdf" = false) ∧
    extractText "/app/uploads/notes.txt" ⟨.ok none, .ok [], .ok none, .ok none⟩ =
      .ok (fallbackText (extname "/app/uploads/notes.txt")) :=
  ⟨by decide,
    (unrecognized_suffix_fallback "/app/uploads/notes.txt"
      ⟨.ok none, .ok [], .ok none, .ok none⟩
      (by decide) (by decide) (by decide) (by decide) (by decide) (by decide)).1⟩

/-! ## Helper lemmas for index search and trimming membership -/

theorem exists_firstIndexOf_of_mem {c : Char} {l : List Char} (h : c ∈ l) :
    ∃ i, firstIndexOf l c = some i := by
  induction l with
  | nil => cases h
  | cons a rest ih =>
    by_cases ha : a = c
    · exact ⟨0, by simp [firstIndexOf, ha]⟩
    · have : c ∈ rest := by
        rcases List.mem_cons.1 h with h' | h'
        · exact absurd h'.symm ha
        · exact h'
      obtain ⟨i, hi⟩ := ih this
      exact ⟨i + 1, by simp [firstIndexOf, ha, hi]⟩

theorem firstIndexOf_eq_none_of_not_mem {c : Char} {l : List Char} (h : c ∉ l) :
    firstIndexOf l c = none := by
  induction l with
  | nil => rfl
  | cons a rest ih =>
    have ha : ¬a = c := fun he => h (he ▸ List.mem_cons_self a rest)
    have hr : c ∉ rest := fun hm => h (List.mem_cons_of_mem a hm)
    simp [firstIndexOf, ha, ih hr]

theorem exists_lastIndexOf_of_mem {c : Char} {l : List Char} (h : c ∈ l) :
    ∃ i, lastIndexOf l c = some i := by
  obtain ⟨i, hi⟩ := exists_firstIndexOf_of_mem (List.mem_reverse.2 h)
  exact ⟨l.length - 1 - i, by simp [lastIndexOf, hi]⟩

theorem lastIndexOf_eq_none_of_not_mem {c : Char} {l : List Char} (h : c ∉ l) :
    lastIndexOf l c = none := by
  have := firstIndexOf_eq_none_of_not_mem (fun hm => h (List.mem_reverse.1 hm))
  simp [lastIndexOf, this]

theorem mem_dropWhile_of_mem {p : Char → Bool} {a : Char} {l : List Char}
    (h : a ∈ l) (hp : p a = false) : a ∈ l.dropWhile p := by
  have hsplit := List.takeWhile_append_dropWhile p l
  rw [← hsplit] at h
  rcases List.mem_append.1 h with h' | h'
  · have := List.mem_takeWhile_imp h'
    rw [hp] at this
    cases this
  · exact h'

theorem mem_of_mem_dropWhile {p : Char → Bool} {a : Char} {l : List Char}
    (h : a ∈ l.dropWhile p) : a ∈ l := by
  have hsplit := List.takeWhile_append_dropWhile p l
  rw [← hsplit]
  exact List.mem_append.2 (Or.inr h)

/-- Trimming neither adds nor removes occurrences of a non-whitespace
character. -/
theorem mem_jsTrim {a : Char} (s : String) (hp : isJsWs a = false) :
    a ∈ (jsTrim s).data ↔ a ∈ s.data := by
  show a ∈ trimRightList (s.data.dropWhile isJsWs) ↔ _
  unfold trimRightList
  rw [List.mem_reverse]
  constructor
  · intro h
    exact mem_of_mem_dropWhile (List.mem_reverse.1 (mem_of_mem_dropWhile h))
  · intro h
    exact mem_dropWhile_of_mem (List.mem_reverse.2 (mem_dropWhile_of_mem h hp)) hp

/-! ## C6: concept-map boundary extraction and JSON parse -/

/-- **C6.** For every graph-call response containing both braces, the
parser slices the trimmed response from the first `\x7b` to the last
`\x7d` inclusive and hands that slice to `JSON.parse`; on the concrete
response `Sure! \x7b"nodes":[\x7b"id":"A","label":"X"\x7d],"edges":[]\x7d
Thanks.` the parsed concept map is exactly the expected object. -/
theorem conceptMap_boundary_extraction :
    (∀ resp : String, lbrace ∈ resp.data → rbrace ∈ resp.data →
      ∃ start stop,
        firstIndexOf (jsTrim resp).data lbrace = some start ∧
        lastIndexOf (jsTrim resp).data rbrace = some stop ∧
        parseConceptMap resp = jsonParse (jsSlice (jsTrim resp) start (stop + 1))) ∧
    parseConceptMap
        "Sure! \x7b\"nodes\":[\x7b\"id\":\"A\",\"label\":\"X\"\x7d],\"edges\":[]\x7d Thanks." =
      some (JValue.jobj
        [("nodes",
          JValue.jarr [JValue.jobj [("id", JValue.jstr "A"), ("label", JValue.jstr "X")]]),
         ("edges", JValue.jarr [])]) := by
  constructor
  · intro resp h1 h2
    obtain ⟨start, hs⟩ :=
      exists_firstIndexOf_of_mem ((mem_jsTrim resp (by decide)).2 h1)
    obtain ⟨stop, he⟩ :=
      exists_lastIndexOf_of_mem ((mem_jsTrim resp (by decide)).2 h2)
    refine ⟨start, stop, hs, he, ?_⟩
    simp only [parseConceptMap, hs, he]
  · rfl

/-- Witness for C6: the universal part applied at the concrete response. -/
theorem conceptMap_boundary_extraction_witness :
    lbrace ∈ ("x \x7b\"a\":1\x7d y" : String).data ∧
    rbrace ∈ ("x \x7b\"a\":1\x7d y" : String).data ∧
    ∃ start stop,
      firstIndexOf (jsTrim "x \x7b\"a\":1\x7d y").data lbrace = some start ∧
      lastIndexOf (jsTrim "x \x7b\"a\":1\x7d y").data rbrace = some stop ∧
      parseConceptMap "x \x7b\"a\":1\x7d y" =
        jsonParse (jsSlice (jsTrim "x \x7b\"a\":1\x7d y") start (stop + 1)) :=
  ⟨by decide, by decide,
    conceptMap_boundary_extraction.1 "x \x7b\"a\":1\x7d y" (by decide) (by decide)⟩

/-! ## C7: graph-parse failure is non-fatal -/

/-- **C7.** For every graph-call response with no `\x7b`, or no `\x7d`,
or whose boundary slice fails to parse as JSON, the concept map is `null`,
and a job whose extraction passed the guard still completes as `done`
with its summary populated: graph-parse failure is never converted into a
job error. -/
theorem graph_parse_failure_nonfatal
    (resp : String)
    (hfail : lbrace ∉ resp.data ∨ rbrace ∉ resp.data ∨
      jsonParse (jsSlice (jsTrim resp)
        ((firstIndexOf (jsTrim resp).data lbrace).getD 0)
        (((lastIndexOf (jsTrim resp).data rbrace).getD 0) + 1)) = none) :
    parseConceptMap resp = none ∧
    (∀ (fullPath : String) (xenv : ExtractEnv) (old : Option StatusRecord) (now : Nat)
      (summary t : String),
      extractText fullPath xenv = .ok t →
      ¬(t = "" ∨ (jsTrim t).length < 20) →
      processJobTry fullPath xenv ⟨.ok (), .ok summary, .ok resp⟩ = .ok ⟨summary, none⟩ ∧
      (processJobRecord old now fullPath xenv ⟨.ok (), .ok summary, .ok resp⟩).status =
        some JStatus.done ∧
      (processJobRecord old now fullPath xenv ⟨.ok (), .ok summary, .ok resp⟩).result =
        some ⟨summary, none⟩) := by
  have hmain : parseConceptMap resp = none := by
    rcases hfail with h | h | h
    · have h1 : firstIndexOf (jsTrim resp).data lbrace = none :=
        firstIndexOf_eq_none_of_not_mem fun hm => h ((mem_jsTrim resp (by decide)).1 hm)
      cases h2 : lastIndexOf (jsTrim resp).data rbrace <;>
        simp only [parseConceptMap, h1, h2]
    · have h2 : lastIndexOf (jsTrim resp).data rbrace = none :=
        lastIndexOf_eq_none_of_not_mem fun hm => h ((mem_jsTrim resp (by decide)).1 hm)
      cases h1 : firstIndexOf (jsTrim resp).data lbrace <;>
        simp only [parseConceptMap, h1, h2]
    · cases h1 : firstIndexOf (jsTrim resp).data lbrace with
      | none => cases h2 : lastIndexOf (jsTrim resp).data rbrace <;>
          simp only [parseConceptMap, h1, h2]
      | some start =>
        cases h2 : lastIndexOf (jsTrim resp).data rbrace with
        | none => simp only [parseConceptMap, h1, h2]
        | some stop =>
          rw [h1, h2] at h
          simp only [Option.getD_some] at h
          simp only [parseConceptMap, h1, h2, h]
  refine ⟨hmain, fun fullPath xenv old now summary t hext hguard => ?_⟩
  have htry : processJobTry fullPath xenv ⟨.ok (), .ok summary, .ok resp⟩ =
      .ok ⟨summary, none⟩ := by
    simp only [processJobTry, hext, if_neg hguard, hmain]
  refine ⟨htry, ?_, ?_⟩
  · unfold processJobRecord
    rw [htry]
    rfl
  · unfold processJobRecord
    rw [htry]
    rfl

set_option maxRecDepth 4000 in
/-- Witness for C7 at a response with no braces, on the fallback
extraction path. -/
theorem graph_parse_failure_nonfatal_witness :
    lbrace ∉ ("Sorry, I cannot produce a graph." : String).data ∧
    parseConceptMap "Sorry, I cannot produce a graph." = none ∧
    processJobTry "/app/uploads/notes.txt" ⟨.ok none, .ok [], .ok none, .ok none⟩
      ⟨.ok (), .ok "SUM", .ok "Sorry, I cannot produce a graph."⟩ = .ok ⟨"SUM", none⟩ := by
  have h := graph_parse_failure_nonfatal "Sorry, I cannot produce a graph."
    (Or.inl (by decide))
  exact ⟨by decide, h.1,
    (h.2 "/app/uploads/notes.txt" ⟨.ok none, .ok [], .ok none, .ok none⟩ none 0 "SUM"
      (fallbackText (extname "/app/uploads/notes.txt")) (by rfl) (by decide)).1⟩

/-! ## C5: PPTX slide extraction -/

/-- Digits of a slide entry name after the 16-character prefix
`ppt/slides/slide`, read as a decimal number. Used only to express the
spec's numeric-ordering wording. -/
def slideNumber (name : String) : Nat :=
  ((name.data.drop 16).takeWhile (fun c => 48 ≤ c.toNat && c.toNat ≤ 57)).foldl
    (fun n c => n * 10 + (c.toNat - 48)) 0

/-- Modelled from the spec: claim C5 asserts the sort puts slides in "the
numeric ordering of the filenames"; this variant of `slideNames` sorts by
the numeric slide index and is compared against the code's lexicographic
sort to refute that wording. -/
def slideNamesNumeric (names : List String) : List String :=
  List.insertionSort (fun a b : String => slideNumber a ≤ slideNumber b)
    (names.filter (fun n => jsStartsWith n "ppt/slides/slide" && jsEndsWith n ".xml"))

/-- Modelled from the spec: PPTX extraction as claim C5 describes it,
with slides in numeric filename order. -/
def pptxTextNumeric (files : List (String × String)) : String :=
  pptxLoop files (slideNamesNumeric (files.map Prod.fst)) 0

/-- **C5, counterexample.** With ten or more slides the lexicographic
name sort does not match the numeric ordering of the filenames:
`slide10.xml` sorts before `slide2.xml`, so the extracted text places the
tenth slide's content second and the claim's numeric-ordering property
fails on this input. -/
theorem pptx_numeric_order_counterexample :
    pptxText [("ppt/slides/slide1.xml", "one"), ("ppt/slides/slide2.xml", "two"),
        ("ppt/slides/slide10.xml", "ten")] =
      "Slide 1: one\n\nSlide 2: ten\n\nSlide 3: two\n\n" ∧
    pptxTextNumeric [("ppt/slides/slide1.xml", "one"), ("ppt/slides/slide2.xml", "two"),
        ("ppt/slides/slide10.xml", "ten")] =
      "Slide 1: one\n\nSlide 2: two\n\nSlide 3: ten\n\n" ∧
    pptxText [("ppt/slides/slide1.xml", "one"), ("ppt/slides/slide2.xml", "two"),
        ("ppt/slides/slide10.xml", "ten")] ≠
      pptxTextNumeric [("ppt/slides/slide1.xml", "one"), ("ppt/slides/slide2.xml", "two"),
        ("ppt/slides/slide10.xml", "ten")] :=
  ⟨by decide, by decide, by decide⟩

theorem listCharLe_total : ∀ (l1 l2 : List Char),
    listCharLe l1 l2 = true ∨ listCharLe l2 l1 = true
  | [], _ => Or.inl rfl
  | _ :: _, [] => Or.inr rfl
  | a :: as, b :: bs => by
    by_cases hab : a.toNat = b.toNat
    · rcases listCharLe_total as bs with h | h
      · exact Or.inl (by simp [listCharLe, hab, h])
      · exact Or.inr (by simp [listCharLe, hab.symm, h])
    · rcases Nat.lt_or_ge a.toNat b.toNat with h | h
      · exact Or.inl (by simp [listCharLe, hab]; omega)
      · have hba : ¬b.toNat = a.toNat := fun e => hab e.symm
        exact Or.inr (by simp [listCharLe, hba]; omega)

theorem listCharLe_trans : ∀ {l1 l2 l3 : List Char},
    listCharLe l1 l2 = true → listCharLe l2 l3 = true → listCharLe l1 l3 = true
  | [], _, _, _, _ => rfl
  | _ :: _, [], _, h12, _ => by simp [listCharLe] at h12
  | _ :: _, _ :: _, [], _, h23 => by simp [listCharLe] at h23
  | a :: as, b :: bs, c :: cs, h12, h23 => by
    simp only [listCharLe] at h12 h23 ⊢
    by_cases hab : a.toNat = b.toNat
    · by_cases hbc : b.toNat = c.toNat
      · rw [if_pos hab] at h12
        rw [if_pos hbc] at h23
        rw [if_pos (hab.trans hbc)]
        exact listCharLe_trans h12 h23
      · rw [if_pos hab] at h12
        rw [if_neg hbc, decide_eq_true_iff] at h23
        rw [if_neg (by omega)]
        simp only [decide_eq_true_iff]
        omega
    · rw [if_neg hab, decide_eq_true_iff] at h12
      by_cases hbc : b.toNat = c.toNat
      · rw [if_neg (by omega)]
        simp only [decide_eq_true_iff]
        omega
      · rw [if_neg hbc, decide_eq_true_iff] at h23
        rw [if_neg (by omega)]
        simp only [decide_eq_true_iff]
        omega

/-- The slide loop as a fold over the position-enumerated sorted list. -/
theorem pptxLoop_eq_foldr (files : List (String × String)) :
    ∀ (l : List String) (i : Nat),
      pptxLoop files l i =
        ((l.enumFrom i).map (fun p =>
          if cleanXml (entryText files p.2) = "" then ""
          else "Slide " ++ toString (p.1 + 1) ++ ": " ++
            cleanXml (entryText files p.2) ++ "\n\n")).foldr (fun a b => a ++ b) ""
  | [], _ => rfl
  | name :: rest, i => by
    simp only [pptxLoop, List.enumFrom, List.map, List.foldr]
    rw [pptxLoop_eq_foldr files rest (i + 1)]
    by_cases h : cleanXml (entryText files name) = ""
    · rw [if_neg (fun hc => hc h), if_pos h]
    · rw [if_pos h, if_neg h]

/-- **C5, amended.** For every presentation archive, extraction filters
the zip entries whose names start with `ppt/slides/slide` and end with
`.xml` and sorts them lexicographically by name — an order that matches
the numeric ordering of the filenames only while slide numbers have
equally many digits (with ten or more slides `slide10.xml` sorts before
`slide2.xml`). Each entry is cleaned (tags stripped, whitespace
collapsed, trimmed) and the non-empty cleaned texts are concatenated as
`Slide <n>: <cleaned>\n\n` where `n` is the 1-based position of the entry
in the sorted list; entries whose cleaned text is empty are omitted
entirely. -/
theorem pptx_extraction_amended :
    (∀ files : List (String × String),
      pptxText files =
        ((slideNames (files.map Prod.fst)).enum.map (fun p =>
          if cleanXml (entryText files p.2) = "" then ""
          else "Slide " ++ toString (p.1 + 1) ++ ": " ++
            cleanXml (entryText files p.2) ++ "\n\n")).foldr (fun a b => a ++ b) "") ∧
    (∀ names : List String,
      List.Sorted (fun a b : String => jsStrLe a b = true) (slideNames names) ∧
      (slideNames names).Perm
        (names.filter (fun n => jsStartsWith n "ppt/slides/slide" && jsEndsWith n ".xml"))) ∧
    pptxText [("ppt/slides/slide2.xml", "<p>Beta</p>"), ("ppt/slides/slide1.xml", ""),
        ("ppt/slides/slide3.xml", "<x> </x>"), ("ppt/notes/note1.xml", "ignored")] =
      "Slide 2: Beta\n\n" := by
  refine ⟨fun files => pptxLoop_eq_foldr files _ 0, fun names => ⟨?_, ?_⟩, by decide⟩
  · haveI : IsTotal String (fun a b : String => jsStrLe a b = true) :=
      ⟨fun a b => listCharLe_total a.data b.data⟩
    haveI : IsTrans String (fun a b : String => jsStrLe a b = true) :=
      ⟨fun _ _ _ h1 h2 => listCharLe_trans h1 h2⟩
    exact List.sorted_insertionSort _ _
  · exact List.perm_insertionSort _ _

/-! ## Registry update helpers -/

theorem statusGet_statusSet_self (id : String) (r : StatusRecord) :
    ∀ m, statusGet (statusSet m id r) id = some r
  | [] => by simp [statusSet, statusGet, List.lookup]
  | (k, v) :: rest => by
    by_cases hk : k = id
    · simp [statusSet, hk, statusGet, List.lookup]
    · have hne : (id == k) = false := by
        simp only [beq_eq_false_iff_ne, ne_eq]
        exact fun e => hk e.symm
      simp only [statusSet, if_neg hk, statusGet, List.lookup, hne]
      exact statusGet_statusSet_self id r rest

theorem statusGet_statusSet_ne (id id' : String) (r : StatusRecord) (h : id' ≠ id) :
    ∀ m, statusGet (statusSet m id r) id' = statusGet m id'
  | [] => by
    have hne : (id' == id) = false := by simpa [beq_eq_false_iff_ne] using h
    simp [statusSet, statusGet, List.lookup, hne]
  | (k, v) :: rest => by
    by_cases hk : k = id
    · subst hk
      have hne : (id' == k) = false := by simpa [beq_eq_false_iff_ne] using h
      simp [statusSet, statusGet, List.lookup, hne]
    · simp only [statusSet, if_neg hk, statusGet, List.lookup]
      cases hik : id' == k
      · exact statusGet_statusSet_ne id id' r h rest
      · rfl

/-! ## C3: per-job errors are contained at the processing boundary -/

/-- **C3.** Any error thrown during a job's processing (propagated by any
stage into `processJobTry`'s error result) is converted into an `error`
StatusRecord whose message is the error's message, with the generic
fallback `Processing failed` when the error carries none (or an empty
one); the worker flag is released rather than propagating the error, a
further drain is scheduled whenever jobs are pending, and the next
pending job is claimed by that drain — a failed job never blocks its
successors. -/
theorem job_error_contained
    (fullPath : String) (xenv : ExtractEnv) (genv : GenEnv)
    (old : Option StatusRecord) (now : Nat) (e : JsErr)
    (htry : processJobTry fullPath xenv genv = .error e) :
    ((processJobRecord old now fullPath xenv genv).status = some JStatus.error ∧
      (processJobRecord old now fullPath xenv genv).message = some (errMessage e.message) ∧
      (∀ m, e.message = some m → m ≠ "" → errMessage e.message = m) ∧
      (e.message = none → errMessage e.message = "Processing failed")) ∧
    (∀ (s : QState) (job : Job), s.active = some job →
      resolveFullPath s.cwd job.savedLocation = fullPath →
      (finishFn s xenv genv).workerRunning = false ∧
      (∀ rec, statusGet (finishFn s xenv genv).statuses job.id = some rec →
        rec.status = some JStatus.error ∧ rec.message = some (errMessage e.message)) ∧
      (s.jobs ≠ [] → (finishFn s xenv genv).drainPending = s.drainPending + 1) ∧
      (∀ j2 rest, s.jobs = j2 :: rest →
        (step (finishFn s xenv genv) Event.drainTimer).active = some j2 ∧
        (step (finishFn s xenv genv) Event.drainTimer).workerRunning = true)) := by
  constructor
  · refine ⟨?_, ?_, ?_, ?_⟩
    · unfold processJobRecord
      rw [htry]
      rfl
    · unfold processJobRecord
      rw [htry]
      rfl
    · intro m hm hne
      unfold errMessage
      rw [hm]
      simp [hne]
    · intro hm
      unfold errMessage
      rw [hm]
  · intro s job hact hfp
    have hrec : statusGet (finishFn s xenv genv).statuses job.id =
        some (processJobRecord (statusGet s.statuses job.id) s.clock
          (resolveFullPath s.cwd job.savedLocation) xenv genv) := by
      simp only [finishFn, hact]
      exact statusGet_statusSet_self _ _ _
    refine ⟨by simp only [finishFn, hact], ?_, ?_, ?_⟩
    · intro rec hrec'
      rw [hrec] at hrec'
      obtain rfl := Option.some_inj.mp hrec'
      rw [hfp]
      unfold processJobRecord
      rw [htry]
      exact ⟨rfl, rfl⟩
    · intro hjobs
      simp only [finishFn, hact]
      cases hj : s.jobs with
      | nil => exact absurd hj hjobs
      | cons j2 rest => simp [hj]
    · intro j2 rest hj
      have hfin : (finishFn s xenv genv).drainPending = s.drainPending + 1 := by
        simp only [finishFn, hact]
        simp [hj]
      have hjobs2 : (finishFn s xenv genv).jobs = j2 :: rest := by
        simp only [finishFn, hact]
        exact hj
      have hwr : (finishFn s xenv genv).workerRunning = false := by
        simp only [finishFn, hact]
      constructor
      · show (step _ Event.drainTimer).active = some j2
        simp only [step, hfin]
        rw [if_pos (by omega)]
        simp only [processNextFn, hwr, Bool.false_eq_true, if_false, hjobs2]
      · show (step _ Event.drainTimer).workerRunning = true
        simp only [step, hfin]
        rw [if_pos (by omega)]
        simp only [processNextFn, hwr, Bool.false_eq_true, if_false, hjobs2]

set_option maxRecDepth 8000 in
/-- Witness for C3: a missing API key on the fallback extraction path,
with a second job pending. -/
theorem job_error_contained_witness :
    processJobTry "/app/up/f.txt" ⟨.ok none, .ok [], .ok none, .ok none⟩
      ⟨.error ⟨some "COHERE_API_KEY is not set in environment"⟩, .ok "", .ok ""⟩ =
      .error ⟨some "COHERE_API_KEY is not set in environment"⟩ ∧
    (processJobRecord none 0 "/app/up/f.txt" ⟨.ok none, .ok [], .ok none, .ok none⟩
      ⟨.error ⟨some "COHERE_API_KEY is not set in environment"⟩, .ok "", .ok ""⟩).status =
      some JStatus.error := by
  have h := job_error_contained "/app/up/f.txt" ⟨.ok none, .ok [], .ok none, .ok none⟩
    ⟨.error ⟨some "COHERE_API_KEY is not set in environment"⟩, .ok "", .ok ""⟩
    none 0 ⟨some "COHERE_API_KEY is not set in environment"⟩ (by rfl)
  exact ⟨by rfl, h.1.1⟩

/-! ## C10: duplicate job ids corrupt the status record -/

set_option maxRecDepth 8000 in
/-- **C10.** Job-id uniqueness is not enforced: enqueue a job with id
`x`, let it fail (terminal status `error` with message `boom`), then
enqueue a second job with the same id `x`. Claiming the second job merges
`processing` back into the same StatusRecord: the record leaves its
terminal state while the first job's stale `message` field persists. -/
theorem duplicate_id_reuses_record :
    statusGet (run "/app" [.enqueue ⟨"x", "up/a.txt"⟩,
        .finish ⟨.ok none, .ok [], .ok none, .ok none⟩
          ⟨.error ⟨some "boom"⟩, .ok "", .ok ""⟩]).statuses "x" =
      some ⟨some JStatus.error, some 0, none, none, some "boom"⟩ ∧
    statusGet (run "/app" [.enqueue ⟨"x", "up/a.txt"⟩,
        .finish ⟨.ok none, .ok [], .ok none, .ok none⟩
          ⟨.error ⟨some "boom"⟩, .ok "", .ok ""⟩,
        .enqueue ⟨"x", "up/b.txt"⟩]).statuses "x" =
      some ⟨some JStatus.processing, some 2, none, none, some "boom"⟩ :=
  ⟨rfl, rfl⟩

/-! ## The worker-loop invariant -/

/-- A record in a terminal state (`done` or `error`). -/
def terminalRec (rec : StatusRecord) : Prop :=
  rec.status = some JStatus.done ∨ rec.status = some JStatus.error

/-- The inductive invariant of the event loop: the worker flag is set
exactly while a `processJob` call is in flight; the submission log splits
into the claim log followed by the pending ids; the claim log splits into
the finish log followed by the in-flight id; only the in-flight job's id
can hold a `processing` record; every claimed id is in flight or already
terminal; and the in-flight job's record exists, is `processing`, and
carries a `startedAt`. -/
def QInv (s : QState) : Prop :=
  (s.workerRunning = s.active.isSome) ∧
  (s.ghostEnqueued = s.ghostClaimed ++ s.jobs.map Job.id) ∧
  (s.ghostClaimed = s.ghostFinished ++ (s.active.map Job.id).toList) ∧
  (∀ id rec, statusGet s.statuses id = some rec →
    rec.status = some JStatus.processing → ∃ job, s.active = some job ∧ job.id = id) ∧
  (∀ id, id ∈ s.ghostClaimed →
    (∃ job, s.active = some job ∧ job.id = id) ∨
    (∃ rec, statusGet s.statuses id = some rec ∧ terminalRec rec)) ∧
  (∀ job, s.active = some job →
    ∃ rec, statusGet s.statuses job.id = some rec ∧
      rec.status = some JStatus.processing ∧ rec.startedAt.isSome)

/-- Every terminal write is `done` or `error`. -/
theorem processJobRecord_terminal (old : Option StatusRecord) (now : Nat)
    (fp : String) (x : ExtractEnv) (g : GenEnv) :
    terminalRec (processJobRecord old now fp x g) := by
  unfold processJobRecord terminalRec
  cases htry : processJobTry fp x g with
  | ok res => exact Or.inl rfl
  | error e => exact Or.inr rfl

theorem qinv_processNext {s : QState} (h : QInv s) : QInv (processNextFn s) := by
  obtain ⟨h1, h2, h3, h4, h5, h6⟩ := h
  cases hwr : s.workerRunning with
  | true =>
    have : processNextFn s = s := by simp [processNextFn, hwr]
    rw [this]
    exact ⟨h1, h2, h3, h4, h5, h6⟩
  | false =>
    cases hj : s.jobs with
    | nil =>
      have : processNextFn s = s := by simp [processNextFn, hwr, hj]
      rw [this]
      exact ⟨h1, h2, h3, h4, h5, h6⟩
    | cons job rest =>
      have hact : s.active = none := by
        cases ha : s.active
        · rfl
        · rw [ha, hwr] at h1
          simp at h1
      have hs' : processNextFn s =
          { s with
            jobs := rest
            workerRunning := true
            statuses := statusSet s.statuses job.id
              (claimMerge (statusGet s.statuses job.id) s.clock)
            active := some job
            clock := s.clock + 1
            ghostClaimed := s.ghostClaimed ++ [job.id] } := by
        simp [processNextFn, hwr, hj]
      rw [hs']
      refine ⟨rfl, ?_, ?_, ?_, ?_, ?_⟩
      · show s.ghostEnqueued = (s.ghostClaimed ++ [job.id]) ++ rest.map Job.id
        rw [h2, hj]
        simp
      · show s.ghostClaimed ++ [job.id] = s.ghostFinished ++ [job.id]
        rw [h3, hact]
        simp
      · intro id rec hlk hproc
        by_cases hid : id = job.id
        · exact ⟨job, rfl, hid.symm⟩
        · rw [statusGet_statusSet_ne _ _ _ hid] at hlk
          obtain ⟨job', hja, _⟩ := h4 id rec hlk hproc
          rw [hact] at hja
          exact Option.noConfusion hja
      · intro id hmem
        rcases List.mem_append.1 hmem with hmem | hmem
        · by_cases hid : id = job.id
          · exact Or.inl ⟨job, rfl, hid.symm⟩
          · rcases h5 id hmem with ⟨job', hja, _⟩ | ⟨rec, hlk, ht⟩
            · rw [hact] at hja
              exact Option.noConfusion hja
            · exact Or.inr ⟨rec, by rw [statusGet_statusSet_ne _ _ _ hid]; exact hlk, ht⟩
        · have : id = job.id := by simpa using hmem
          exact Or.inl ⟨job, rfl, this.symm⟩
      · intro job' hj'
        have : job = job' := by
          have := Option.some_inj.mp hj'
          exact this
        subst this
        exact ⟨claimMerge (statusGet s.statuses job.id) s.clock,
          statusGet_statusSet_self _ _ _, rfl, rfl⟩

theorem qinv_finish {s : QState} (x : ExtractEnv) (g : GenEnv) (h : QInv s) :
    QInv (finishFn s x g) := by
  obtain ⟨h1, h2, h3, h4, h5, h6⟩ := h
  cases hact : s.active with
  | none =>
    have : finishFn s x g = s := by simp [finishFn, hact]
    rw [this]
    exact ⟨h1, h2, h3, h4, h5, h6⟩
  | some job =>
    have hs' : finishFn s x g = { s with
        statuses := statusSet s.statuses job.id
          (processJobRecord (statusGet s.statuses job.id) s.clock
            (resolveFullPath s.cwd job.savedLocation) x g)
        workerRunning := false
        active := none
        drainPending := s.drainPending + (if s.jobs.length > 0 then 1 else 0)
        clock := s.clock + 1
        ghostFinished := s.ghostFinished ++ [job.id] } := by
      simp [finishFn, hact]
    rw [hs']
    have hterm := processJobRecord_terminal (statusGet s.statuses job.id) s.clock
      (resolveFullPath s.cwd job.savedLocation) x g
    refine ⟨rfl, h2, ?_, ?_, ?_, ?_⟩
    · show s.ghostClaimed = (s.ghostFinished ++ [job.id]) ++ []
      rw [h3, hact]
      simp
    · intro id rec hlk hproc
      by_cases hid : id = job.id
      · subst hid
        rw [statusGet_statusSet_self] at hlk
        obtain rfl := Option.some_inj.mp hlk
        rcases hterm with ht | ht <;> rw [ht] at hproc <;> simp at hproc
      · rw [statusGet_statusSet_ne _ _ _ hid] at hlk
        obtain ⟨job', hja, hjid⟩ := h4 id rec hlk hproc
        rw [hact] at hja
        obtain rfl := Option.some_inj.mp hja
        exact absurd hjid.symm hid
    · intro id hmem
      by_cases hid : id = job.id
      · subst hid
        exact Or.inr ⟨_, statusGet_statusSet_self _ _ _, hterm⟩
      · rcases h5 id hmem with ⟨job', hja, hjid⟩ | ⟨rec, hlk, ht⟩
        · rw [hact] at hja
          obtain rfl := Option.some_inj.mp hja
          exact absurd hjid.symm hid
        · exact Or.inr ⟨rec, by rw [statusGet_statusSet_ne _ _ _ hid]; exact hlk, ht⟩
    · intro job' hj'
      exact Option.noConfusion hj'

theorem qinv_step {s : QState} (e : Event) (h : QInv s) : QInv (step s e) := by
  cases e with
  | enqueue j =>
    apply qinv_processNext
    obtain ⟨h1, h2, h3, h4, h5, h6⟩ := h
    refine ⟨h1, ?_, h3, h4, h5, h6⟩
    show s.ghostEnqueued ++ [j.id] = s.ghostClaimed ++ (s.jobs ++ [j]).map Job.id
    rw [h2]
    simp
  | finish x g => exact qinv_finish x g h
  | drainTimer =>
    by_cases hp : s.drainPending > 0
    · simp only [step, if_pos hp]
      exact qinv_processNext ⟨h.1, h.2.1, h.2.2.1, h.2.2.2.1, h.2.2.2.2.1, h.2.2.2.2.2⟩
    · simp only [step, if_neg hp]
      exact h

theorem qinv_init (cwd : String) : QInv (initState cwd) := by
  refine ⟨rfl, rfl, rfl, ?_, ?_, ?_⟩
  · intro id rec hlk
    simp [statusGet, initState, List.lookup] at hlk
  · intro id hmem
    simp [initState] at hmem
  · intro job hj
    simp [initState] at hj

theorem qinv_run (cwd : String) (es : List Event) : QInv (run cwd es) := by
  suffices h : ∀ (l : List Event) (t : QState), QInv t → QInv (l.foldl step t) by
    exact h es _ (qinv_init cwd)
  intro l
  induction l with
  | nil => intro t ht; exact ht
  | cons e rest ih => intro t ht; exact ih _ (qinv_step e ht)

/-! ## C1: single-flight worker -/

theorem worker_guard_aux (s : QState) (hinv : QInv s) :
    (s.workerRunning = true → processNextFn s = s) ∧
    (s.workerRunning = s.active.isSome) ∧
    (∀ (j : Job) (e : Event), s.active = some j →
      (∀ x g, e ≠ Event.finish x g) → (step s e).active = some j) ∧
    (∀ (j : Job) (x : ExtractEnv) (g : GenEnv), s.active = some j →
      (step s (Event.finish x g)).workerRunning = false ∧
      ∃ rec, statusGet (step s (Event.finish x g)).statuses j.id = some rec ∧
        terminalRec rec) := by
  obtain ⟨h1, h2, h3, h4, h5, h6⟩ := hinv
  refine ⟨?_, h1, ?_, ?_⟩
  · intro hwr
    simp [processNextFn, hwr]
  · intro j e hact hne
    have hwr : s.workerRunning = true := by rw [h1, hact]; rfl
    cases e with
    | enqueue j' =>
      show (processNextFn _).active = some j
      simp only [processNextFn, hwr, if_pos]
      exact hact
    | finish x g => exact absurd rfl (hne x g)
    | drainTimer =>
      by_cases hp : s.drainPending > 0
      · simp only [step, if_pos hp, processNextFn, hwr, if_pos]
        exact hact
      · simp only [step, if_neg hp]
        exact hact
  · intro j x g hact
    refine ⟨by simp [step, finishFn, hact], ?_⟩
    have hlk : statusGet (finishFn s x g).statuses j.id =
        some (processJobRecord (statusGet s.statuses j.id) s.clock
          (resolveFullPath s.cwd j.savedLocation) x g) := by
      simp only [finishFn, hact]
      exact statusGet_statusSet_self _ _ _
    exact ⟨_, hlk, processJobRecord_terminal _ _ _ _ _⟩

/-- **C1.** In every reachable state, a drain attempt is a no-op while
the worker flag is set; the flag is set exactly while a job is in flight;
no event other than the in-flight job's completion changes which job is
active (no second job is claimed while one is in flight); and completion
clears the flag exactly when it writes a terminal (`done`/`error`) status
for the in-flight job. -/
theorem single_flight_worker (cwd : String) (es : List Event) :
    ((run cwd es).workerRunning = true →
      processNextFn (run cwd es) = run cwd es) ∧
    ((run cwd es).workerRunning = (run cwd es).active.isSome) ∧
    (∀ (j : Job) (e : Event), (run cwd es).active = some j →
      (∀ x g, e ≠ Event.finish x g) → (step (run cwd es) e).active = some j) ∧
    (∀ (j : Job) (x : ExtractEnv) (g : GenEnv), (run cwd es).active = some j →
      (step (run cwd es) (Event.finish x g)).workerRunning = false ∧
      ∃ rec, statusGet (step (run cwd es) (Event.finish x g)).statuses j.id = some rec ∧
        terminalRec rec) :=
  worker_guard_aux (run cwd es) (qinv_run cwd es)

set_option maxRecDepth 8000 in
/-- Witness for C1: after one enqueue the worker is busy with that job;
a further drain attempt is a no-op and a second enqueue does not change
the active job. -/
theorem single_flight_worker_witness :
    (run "/app" [Event.enqueue ⟨"a", "up/f.txt"⟩]).workerRunning = true ∧
    processNextFn (run "/app" [Event.enqueue ⟨"a", "up/f.txt"⟩]) =
      run "/app" [Event.enqueue ⟨"a", "up/f.txt"⟩] ∧
    (step (run "/app" [Event.enqueue ⟨"a", "up/f.txt"⟩])
      (Event.enqueue ⟨"b", "up/g.txt"⟩)).active = some ⟨"a", "up/f.txt"⟩ :=
  ⟨rfl,
    (single_flight_worker "/app" [Event.enqueue ⟨"a", "up/f.txt"⟩]).1 rfl,
    (single_flight_worker "/app" [Event.enqueue ⟨"a", "up/f.txt"⟩]).2.2.1
      ⟨"a", "up/f.txt"⟩ (Event.enqueue ⟨"b", "up/g.txt"⟩) rfl
      (fun _ _ h => Event.noConfusion h)⟩

/-! ## C2: strict FIFO claiming and completion order -/

theorem fifo_aux (s : QState) (hinv : QInv s) :
    (s.ghostEnqueued = s.ghostClaimed ++ s.jobs.map Job.id) ∧
    (s.ghostClaimed = s.ghostFinished ++ (s.active.map Job.id).toList) ∧
    (∀ id1 id2 r1 r2, statusGet s.statuses id1 = some r1 →
      r1.status = some JStatus.processing →
      statusGet s.statuses id2 = some r2 →
      r2.status = some JStatus.processing → id1 = id2) ∧
    (∀ e, (step s e).ghostClaimed ≠ s.ghostClaimed →
      ∀ id ∈ s.ghostClaimed,
        ∃ rec, statusGet s.statuses id = some rec ∧ terminalRec rec) := by
  obtain ⟨h1, h2, h3, h4, h5, h6⟩ := hinv
  refine ⟨h2, h3, ?_, ?_⟩
  · intro id1 id2 r1 r2 hl1 hp1 hl2 hp2
    obtain ⟨j1, ha1, hid1⟩ := h4 id1 r1 hl1 hp1
    obtain ⟨j2, ha2, hid2⟩ := h4 id2 r2 hl2 hp2
    rw [ha1] at ha2
    obtain rfl := Option.some_inj.mp ha2
    rw [← hid1, ← hid2]
  · intro e hne id hmem
    have hactnone : s.active = none := by
      cases ha : s.active with
      | none => rfl
      | some j =>
        exfalso
        apply hne
        have hwr : s.workerRunning = true := by rw [h1, ha]; rfl
        cases e with
        | enqueue j' =>
          show (processNextFn _).ghostClaimed = _
          simp [processNextFn, hwr]
        | finish x g =>
          show (finishFn s x g).ghostClaimed = _
          simp [finishFn, ha]
        | drainTimer =>
          by_cases hp : s.drainPending > 0
          · simp [step, if_pos hp, processNextFn, hwr]
          · simp [step, if_neg hp]
    rcases h5 id hmem with ⟨j, hja, _⟩ | ⟨rec, hlk, ht⟩
    · rw [hactnone] at hja
      exact Option.noConfusion hja
    · exact ⟨rec, hlk, ht⟩

/-- **C2.** In every reachable state the submission log is exactly the
claim log followed by the still-pending ids (jobs are claimed in strict
FIFO submission order), the claim log is exactly the completion log
followed by the in-flight id (completion order matches start order), at
most one record is in status `processing` at a time, and whenever a step
claims a new job every previously claimed id already has a terminal
status. -/
theorem fifo_order (cwd : String) (es : List Event) :
    ((run cwd es).ghostEnqueued =
      (run cwd es).ghostClaimed ++ (run cwd es).jobs.map Job.id) ∧
    ((run cwd es).ghostClaimed =
      (run cwd es).ghostFinished ++ ((run cwd es).active.map Job.id).toList) ∧
    (∀ id1 id2 r1 r2, statusGet (run cwd es).statuses id1 = some r1 →
      r1.status = some JStatus.processing →
      statusGet (run cwd es).statuses id2 = some r2 →
      r2.status = some JStatus.processing → id1 = id2) ∧
    (∀ e, (step (run cwd es) e).ghostClaimed ≠ (run cwd es).ghostClaimed →
      ∀ id ∈ (run cwd es).ghostClaimed,
        ∃ rec, statusGet (run cwd es).statuses id = some rec ∧ terminalRec rec) :=
  fifo_aux (run cwd es) (qinv_run cwd es)

set_option maxRecDepth 8000 in
/-- Witness for C2: after a job completes, the claim that a new enqueue
triggers finds every previously claimed id terminal. -/
theorem fifo_order_witness :
    (run "/app" [Event.enqueue ⟨"a", "up/f.txt"⟩,
        Event.finish ⟨.ok none, .ok [], .ok none, .ok none⟩
          ⟨.error ⟨some "no key"⟩, .ok "", .ok ""⟩]).ghostEnqueued =
      (run "/app" [Event.enqueue ⟨"a", "up/f.txt"⟩,
        Event.finish ⟨.ok none, .ok [], .ok none, .ok none⟩
          ⟨.error ⟨some "no key"⟩, .ok "", .ok ""⟩]).ghostClaimed ++
      (run "/app" [Event.enqueue ⟨"a", "up/f.txt"⟩,
        Event.finish ⟨.ok none, .ok [], .ok none, .ok none⟩
          ⟨.error ⟨some "no key"⟩, .ok "", .ok ""⟩]).jobs.map Job.id ∧
    ∃ rec, statusGet (run "/app" [Event.enqueue ⟨"a", "up/f.txt"⟩,
        Event.finish ⟨.ok none, .ok [], .ok none, .ok none⟩
          ⟨.error ⟨some "no key"⟩, .ok "", .ok ""⟩]).statuses "a" = some rec ∧
      terminalRec rec :=
  ⟨(fifo_order "/app" [Event.enqueue ⟨"a", "up/f.txt"⟩,
      Event.finish ⟨.ok none, .ok [], .ok none, .ok none⟩
        ⟨.error ⟨some "no key"⟩, .ok "", .ok ""⟩]).1,
    (fifo_order "/app" [Event.enqueue ⟨"a", "up/f.txt"⟩,
      Event.finish ⟨.ok none, .ok [], .ok none, .ok none⟩
        ⟨.error ⟨some "no key"⟩, .ok "", .ok ""⟩]).2.2.2
      (Event.enqueue ⟨"b", "up/g.txt"⟩) (by decide) "a" (by decide)⟩

/-! ## C8: merge semantics of status updates (unique ids) -/

/-- The record-shape invariant that holds while job ids are unique: every
record belongs to a claimed id; the in-flight job's record is the bare
`processing` claim; and every record has `startedAt` set, a `result`
exactly when `done` and a `message` exactly when `error`. -/
def QInvD (s : QState) : Prop :=
  (∀ id rec, statusGet s.statuses id = some rec → id ∈ s.ghostClaimed) ∧
  (∀ job, s.active = some job → ∀ rec, statusGet s.statuses job.id = some rec →
    rec.status = some JStatus.processing ∧ rec.startedAt.isSome ∧
    rec.finishedAt = none ∧ rec.result = none ∧ rec.message = none) ∧
  (∀ id rec, statusGet s.statuses id = some rec →
    rec.startedAt.isSome ∧
    (rec.result.isSome ↔ rec.status = some JStatus.done) ∧
    (rec.message.isSome ↔ rec.status = some JStatus.error))

theorem processNext_enq (t : QState) :
    (processNextFn t).ghostEnqueued = t.ghostEnqueued := by
  unfold processNextFn
  cases hwr : t.workerRunning
  · cases hj : t.jobs <;> simp
  · simp

theorem step_enq (s : QState) (e : Event) :
    (step s e).ghostEnqueued = s.ghostEnqueued ∨
    ∃ x, (step s e).ghostEnqueued = s.ghostEnqueued ++ [x] := by
  cases e with
  | enqueue j =>
    right
    exact ⟨j.id, processNext_enq _⟩
  | finish x g =>
    left
    unfold step finishFn
    cases hact : s.active <;> simp
  | drainTimer =>
    left
    unfold step
    by_cases hp : s.drainPending > 0
    · rw [if_pos hp]
      exact processNext_enq _
    · rw [if_neg hp]

theorem qinvd_processNext {t : QState} (hq : QInv t) (hd : QInvD t)
    (hnodup : t.ghostEnqueued.Nodup) : QInvD (processNextFn t) := by
  obtain ⟨h1, h2, h3, h4, h5, h6⟩ := hq
  obtain ⟨d1, d2, d3⟩ := hd
  cases hwr : t.workerRunning with
  | true =>
    have : processNextFn t = t := by simp [processNextFn, hwr]
    rw [this]
    exact ⟨d1, d2, d3⟩
  | false =>
    cases hj : t.jobs with
    | nil =>
      have : processNextFn t = t := by simp [processNextFn, hwr, hj]
      rw [this]
      exact ⟨d1, d2, d3⟩
    | cons job rest =>
      have hs' : processNextFn t =
          { t with
            jobs := rest
            workerRunning := true
            statuses := statusSet t.statuses job.id
              (claimMerge (statusGet t.statuses job.id) t.clock)
            active := some job
            clock := t.clock + 1
            ghostClaimed := t.ghostClaimed ++ [job.id] } := by
        simp [processNextFn, hwr, hj]
      -- the claimed id is fresh: it has no record yet
      have hfresh : job.id ∉ t.ghostClaimed := by
        rw [h2, hj] at hnodup
        have hdisj := List.disjoint_of_nodup_append hnodup
        intro hmem
        exact hdisj hmem (by simp)
      have hnone : statusGet t.statuses job.id = none := by
        cases hlk : statusGet t.statuses job.id with
        | none => rfl
        | some rec => exact absurd (d1 job.id rec hlk) hfresh
      have hclaim : claimMerge (statusGet t.statuses job.id) t.clock =
          ⟨some JStatus.processing, some t.clock, none, none, none⟩ := by
        rw [hnone]
        rfl
      rw [hs']
      refine ⟨?_, ?_, ?_⟩
      · intro id rec hlk
        by_cases hid : id = job.id
        · subst hid
          simp
        · rw [statusGet_statusSet_ne _ _ _ hid] at hlk
          exact List.mem_append_left _ (d1 id rec hlk)
      · intro job' hj' rec hlk
        obtain rfl := Option.some_inj.mp hj'
        rw [statusGet_statusSet_self] at hlk
        obtain rfl := Option.some_inj.mp hlk
        rw [hclaim]
        exact ⟨rfl, rfl, rfl, rfl, rfl⟩
      · intro id rec hlk
        by_cases hid : id = job.id
        · subst hid
          rw [statusGet_statusSet_self] at hlk
          obtain rfl := Option.some_inj.mp hlk
          rw [hclaim]
          refine ⟨rfl, ?_, ?_⟩ <;> simp
        · rw [statusGet_statusSet_ne _ _ _ hid] at hlk
          exact d3 id rec hlk

theorem startedAt_processJobRecord (rec : StatusRecord) (now : Nat) (fp : String)
    (x : ExtractEnv) (g : GenEnv) :
    (processJobRecord (some rec) now fp x g).startedAt = rec.startedAt := by
  unfold processJobRecord
  cases processJobTry fp x g <;> rfl

theorem qinvd_finish {s : QState} (x : ExtractEnv) (g : GenEnv)
    (hq : QInv s) (hd : QInvD s) : QInvD (finishFn s x g) := by
  obtain ⟨h1, h2, h3, h4, h5, h6⟩ := hq
  obtain ⟨d1, d2, d3⟩ := hd
  cases hact : s.active with
  | none =>
    have : finishFn s x g = s := by simp [finishFn, hact]
    rw [this]
    exact ⟨d1, d2, d3⟩
  | some job =>
    obtain ⟨rec0, hlk0, hproc0, hstart0⟩ := h6 job hact
    obtain ⟨_, _, hfin0, hres0, hmsg0⟩ := d2 job hact rec0 hlk0
    have hs' : finishFn s x g = { s with
        statuses := statusSet s.statuses job.id
          (processJobRecord (statusGet s.statuses job.id) s.clock
            (resolveFullPath s.cwd job.savedLocation) x g)
        workerRunning := false
        active := none
        drainPending := s.drainPending + (if s.jobs.length > 0 then 1 else 0)
        clock := s.clock + 1
        ghostFinished := s.ghostFinished ++ [job.id] } := by
      simp [finishFn, hact]
    have hnew : ∀ recN, processJobRecord (statusGet s.statuses job.id) s.clock
        (resolveFullPath s.cwd job.savedLocation) x g = recN →
        recN.startedAt.isSome ∧
        (recN.result.isSome ↔ recN.status = some JStatus.done) ∧
        (recN.message.isSome ↔ recN.status = some JStatus.error) := by
      intro recN hrecN
      rw [hlk0] at hrecN
      unfold processJobRecord at hrecN
      cases htry : processJobTry (resolveFullPath s.cwd job.savedLocation) x g with
      | ok res =>
        rw [htry] at hrecN
        subst hrecN
        refine ⟨hstart0, ?_, ?_⟩ <;> simp [doneMerge, hmsg0]
      | error e =>
        rw [htry] at hrecN
        subst hrecN
        refine ⟨hstart0, ?_, ?_⟩ <;> simp [errMerge, hres0]
    rw [hs']
    refine ⟨?_, ?_, ?_⟩
    · intro id rec hlk
      by_cases hid : id = job.id
      · subst hid
        exact d1 _ rec0 hlk0
      · rw [statusGet_statusSet_ne _ _ _ hid] at hlk
        exact d1 id rec hlk
    · intro job' hj'
      exact Option.noConfusion hj'
    · intro id rec hlk
      by_cases hid : id = job.id
      · subst hid
        rw [statusGet_statusSet_self] at hlk
        obtain rfl := Option.some_inj.mp hlk
        exact hnew _ rfl
      · rw [statusGet_statusSet_ne _ _ _ hid] at hlk
        exact d3 id rec hlk

theorem qinvd_step {s : QState} (e : Event) (hq : QInv s) (hd : QInvD s)
    (hnodup : (step s e).ghostEnqueued.Nodup) : QInvD (step s e) := by
  cases e with
  | enqueue j =>
    have hq1 : QInv { s with
        jobs := s.jobs ++ [j]
        ghostEnqueued := s.ghostEnqueued ++ [j.id] } := by
      obtain ⟨h1, h2, h3, h4, h5, h6⟩ := hq
      refine ⟨h1, ?_, h3, h4, h5, h6⟩
      show s.ghostEnqueued ++ [j.id] = s.ghostClaimed ++ (s.jobs ++ [j]).map Job.id
      rw [h2]
      simp
    have hd1 : QInvD { s with
        jobs := s.jobs ++ [j]
        ghostEnqueued := s.ghostEnqueued ++ [j.id] } :=
      ⟨hd.1, hd.2.1, hd.2.2⟩
    have hnodup1 : (s.ghostEnqueued ++ [j.id]).Nodup := by
      have hpe := processNext_enq { s with
        jobs := s.jobs ++ [j]
        ghostEnqueued := s.ghostEnqueued ++ [j.id] }
      rw [show (step s (Event.enqueue j)) = processNextFn { s with
        jobs := s.jobs ++ [j]
        ghostEnqueued := s.ghostEnqueued ++ [j.id] } from rfl, hpe] at hnodup
      exact hnodup
    exact qinvd_processNext hq1 hd1 hnodup1
  | finish x g => exact qinvd_finish x g hq hd
  | drainTimer =>
    by_cases hp : s.drainPending > 0
    · simp only [step, if_pos hp]
      have hq1 : QInv { s with drainPending := s.drainPending - 1 } :=
        ⟨hq.1, hq.2.1, hq.2.2.1, hq.2.2.2.1, hq.2.2.2.2.1, hq.2.2.2.2.2⟩
      have hd1 : QInvD { s with drainPending := s.drainPending - 1 } :=
        ⟨hd.1, hd.2.1, hd.2.2⟩
      have hnodup1 : s.ghostEnqueued.Nodup := by
        have hpe := processNext_enq { s with drainPending := s.drainPending - 1 }
        rw [show step s Event.drainTimer =
          processNextFn { s with drainPending := s.drainPending - 1 } from by
            simp [step, if_pos hp], hpe] at hnodup
        exact hnodup
      exact qinvd_processNext hq1 hd1 hnodup1
    · simp only [step, if_neg hp]
      exact hd

theorem qinvd_init (cwd : String) : QInvD (initState cwd) := by
  refine ⟨?_, ?_, ?_⟩
  · intro id rec hlk
    simp [statusGet, initState, List.lookup] at hlk
  · intro job hj
    simp [initState] at hj
  · intro id rec hlk
    simp [statusGet, initState, List.lookup] at hlk

theorem qinvd_run (cwd : String) (es : List Event)
    (hnodup : (run cwd es).ghostEnqueued.Nodup) : QInvD (run cwd es) := by
  suffices h : ∀ (l : List Event) (t : QState), QInv t →
      (t.ghostEnqueued.Nodup → QInvD t) →
      ((l.foldl step t).ghostEnqueued.Nodup → QInvD (l.foldl step t)) by
    exact h es (initState cwd) (qinv_init cwd) (fun _ => qinvd_init cwd) hnodup
  intro l
  induction l with
  | nil => intro t _ hd hn; exact hd hn
  | cons e rest ih =>
    intro t hqt hdt
    apply ih (step t e) (qinv_step e hqt)
    intro hnodup'
    have hback : t.ghostEnqueued.Nodup := by
      rcases step_enq t e with he | ⟨y, he⟩
      · rw [he] at hnodup'
        exact hnodup'
      · rw [he] at hnodup'
        exact hnodup'.of_append_left
    exact qinvd_step e hqt (hdt hback) hnodup'

/-- **C8.** Along every trace whose job ids are pairwise distinct, status
updates merge rather than replace: every record carries the `startedAt`
written at claim time, holds a `result` exactly when its status is `done`
and a `message` exactly when its status is `error`; and completing the
in-flight job yields a terminal record whose `startedAt` equals the one
already in the record (the claim-time field survives the terminal merge). -/
theorem status_merge_semantics (cwd : String) (es : List Event)
    (hnodup : (run cwd es).ghostEnqueued.Nodup) :
    (∀ id rec, statusGet (run cwd es).statuses id = some rec →
      rec.startedAt.isSome ∧
      (rec.result.isSome ↔ rec.status = some JStatus.done) ∧
      (rec.message.isSome ↔ rec.status = some JStatus.error)) ∧
    (∀ (job : Job) (x : ExtractEnv) (g : GenEnv) (rec : StatusRecord),
      (run cwd es).active = some job →
      statusGet (run cwd es).statuses job.id = some rec →
      ∃ rec', statusGet (step (run cwd es) (Event.finish x g)).statuses job.id =
          some rec' ∧
        rec'.startedAt = rec.startedAt ∧ terminalRec rec') := by
  have hd := qinvd_run cwd es hnodup
  refine ⟨hd.2.2, ?_⟩
  intro job x g rec hact hlk
  have hlk' : statusGet (step (run cwd es) (Event.finish x g)).statuses job.id =
      some (processJobRecord (some rec) (run cwd es).clock
        (resolveFullPath (run cwd es).cwd job.savedLocation) x g) := by
    show statusGet (finishFn _ x g).statuses job.id = _
    simp only [finishFn, hact, hlk]
    exact statusGet_statusSet_self _ _ _
  exact ⟨_, hlk', startedAt_processJobRecord rec _ _ x g,
    processJobRecord_terminal _ _ _ x g⟩

set_option maxRecDepth 8000 in
/-- Witness for C8: a single claimed job with a unique id; its record is
the bare claim, and completing it preserves `startedAt` in the terminal
record. -/
theorem status_merge_semantics_witness :
    (run "/app" [Event.enqueue ⟨"a", "up/f.txt"⟩]).ghostEnqueued.Nodup ∧
    (∃ rec', statusGet (step (run "/app" [Event.enqueue ⟨"a", "up/f.txt"⟩])
        (Event.finish ⟨.ok none, .ok [], .ok none, .ok none⟩
          ⟨.error ⟨some "no key"⟩, .ok "", .ok ""⟩)).statuses "a" = some rec' ∧
      rec'.startedAt = (⟨some JStatus.processing, some 0, none, none, none⟩ :
        StatusRecord).startedAt ∧ terminalRec rec') :=
  ⟨by decide,
    (status_merge_semantics "/app" [Event.enqueue ⟨"a", "up/f.txt"⟩] (by decide)).2
      ⟨"a", "up/f.txt"⟩ ⟨.ok none, .ok [], .ok none, .ok none⟩
      ⟨.error ⟨some "no key"⟩, .ok "", .ok ""⟩
      ⟨some JStatus.processing, some 0, none, none, none⟩ rfl rfl⟩

end Summarizer
